import Mathlib

/-
Verification development for the fhe-regex repository: an encrypted-regex
evaluator consisting of a recursive-descent pattern parser (src/regex/parser.rs,
built on the combine combinator library), an execution context with a
structural cache over FHE ciphertext operations (src/regex/execution.rs), and a
branch-enumerating match engine (src/regex/engine.rs).

The embedding models ciphertexts by the plaintext value they encrypt (the FHE
primitives unchecked_eq / unchecked_ge / unchecked_le / unchecked_bitand /
unchecked_bitor / unchecked_bitxor commute with decryption, so the engine's
observable output is a function of the plaintext bytes).  Rust panics
(index-out-of-bounds, Option/Result unwrap failures) are modelled as a distinct
crash outcome; the fuel parameters added to make recursion structural have
their own distinct out-of-fuel outcome so that a crash in the model is
unambiguously a panic of the source.
-/

set_option maxRecDepth 10000

namespace FheRegex

/-! ## The AST (parser.rs, enum RegExpr) -/

inductive RegExpr where
  | SOF
  | EOF
  | Char (c : Nat)
  | AnyChar
  | Not (notRe : RegExpr)
  | Between (lo : Nat) (hi : Nat)
  | Range (cs : List Nat)
  | Either (lRe : RegExpr) (rRe : RegExpr)
  | Optional (optRe : RegExpr)
  | Repeated (repeatRe : RegExpr) (atLeast : Option Nat) (atMost : Option Nat)
  | Seq (reXs : List RegExpr)

/-! ## Parser combinators

Model of the fragment of the combine library the parser uses.  A parser is a
function from the remaining input bytes to an outcome: success or failure, each
carrying whether input was consumed (combine's Parsec-style backtracking
discipline: `choice` only tries the next alternative after a failure that
consumed nothing; `attempt` converts a consuming failure into a non-consuming
one).  `crash` models a Rust panic raised while parsing (e.g. inside a `map`
closure); `fuelOut` is an artifact of the fuel that makes the grammar's
recursion structural and is produced by no claim-relevant run. -/

inductive POut (α : Type) where
  | ok (consumed : Bool) (a : α) (rest : List Nat)
  | err (consumed : Bool) (rest : List Nat)
  | crash
  | fuelOut

def PFn (α : Type) := List Nat → POut α

def pFuelOut : PFn α := fun _ => .fuelOut

def pSatisfy (q : Nat → Bool) : PFn Nat := fun inp =>
  match inp with
  | [] => .err false []
  | x :: rest => if q x then .ok true x rest else .err false inp

/-- combine's byte(b). -/
def pByte (b : Nat) : PFn Nat := pSatisfy (fun x => x == b)

/-- combine's any(): consumes and returns the next byte. -/
def pAny : PFn Nat := fun inp =>
  match inp with
  | [] => .err false []
  | x :: rest => .ok true x rest

def isLetterB (x : Nat) : Bool := (65 ≤ x && x ≤ 90) || (97 ≤ x && x ≤ 122)

def isDigitB (x : Nat) : Bool := 48 ≤ x && x ≤ 57

/-- combine's byte::letter() (ASCII alphabetic). -/
def pLetter : PFn Nat := pSatisfy isLetterB

/-- combine's byte::digit(). -/
def pDigit : PFn Nat := pSatisfy isDigitB

/-- combine's one_of. -/
def pOneOf (cs : List Nat) : PFn Nat := pSatisfy (fun x => cs.contains x)

def pMap (p : PFn α) (g : α → β) : PFn β := fun inp =>
  match p inp with
  | .ok c a rest => .ok c (g a) rest
  | .err c rest => .err c rest
  | .crash => .crash
  | .fuelOut => .fuelOut

/-- A `map` whose closure can panic (returns none): models `.map(..unwrap..)`. -/
def pMapCrash (p : PFn α) (g : α → Option β) : PFn β := fun inp =>
  match p inp with
  | .ok c a rest =>
    match g a with
    | some b => .ok c b rest
    | none => .crash
  | .err c rest => .err c rest
  | .crash => .crash
  | .fuelOut => .fuelOut

def pBind (p : PFn α) (q : α → PFn β) : PFn β := fun inp =>
  match p inp with
  | .ok c a rest =>
    match q a rest with
    | .ok c' b rest' => .ok (c || c') b rest'
    | .err c' rest' => .err (c || c') rest'
    | .crash => .crash
    | .fuelOut => .fuelOut
  | .err c rest => .err c rest
  | .crash => .crash
  | .fuelOut => .fuelOut

/-- combine's choice: the second alternative runs only after a non-consuming
failure of the first. -/
def pChoice (p : PFn α) (q : PFn α) : PFn α := fun inp =>
  match p inp with
  | .err false _ => q inp
  | r => r

/-- combine's attempt: a failure is reported as non-consuming. -/
def pAttempt (p : PFn α) : PFn α := fun inp =>
  match p inp with
  | .err _ _ => .err false inp
  | r => r

/-- combine's optional. -/
def pOptional (p : PFn α) : PFn (Option α) := fun inp =>
  match p inp with
  | .ok c a rest => .ok c (some a) rest
  | .err false _ => .ok false none inp
  | .err true rest => .err true rest
  | .crash => .crash
  | .fuelOut => .fuelOut

/-- combine's many.  The fuel bounds the iteration count by the input length:
an iteration only repeats after consuming input.  A success that consumed
nothing would make combine's many loop forever; that divergence is modelled as
crash (it is unreachable for the grammar's parsers, which always consume on
success). -/
def pManyGo (p : PFn α) : Nat → List Nat → POut (List α)
  | 0, _ => .fuelOut
  | f + 1, inp =>
    match p inp with
    | .err false _ => .ok false [] inp
    | .err true rest => .err true rest
    | .crash => .crash
    | .fuelOut => .fuelOut
    | .ok true a rest =>
      match pManyGo p f rest with
      | .ok _ tl rest' => .ok true (a :: tl) rest'
      | .err _ rest' => .err true rest'
      | .crash => .crash
      | .fuelOut => .fuelOut
    | .ok false _ _ => .crash

def pMany (p : PFn α) : PFn (List α) := fun inp => pManyGo p (inp.length + 1) inp

/-- combine's many1. -/
def pMany1 (p : PFn α) : PFn (List α) :=
  pBind p (fun a => pMap (pMany p) (fun tl => a :: tl))

/-- combine's between(open, close, p). -/
def pBetween (opn : PFn γ) (cls : PFn δ) (p : PFn α) : PFn α :=
  pBind opn (fun _ => pBind p (fun a => pMap cls (fun _ => a)))

/-! ## The grammar (parser.rs) -/

/-- The punctuation set NON_ESCAPABLE_SYMBOLS. -/
def nonEscapable : List Nat := [38, 59, 58, 44, 96, 126, 45, 95, 33, 64, 35, 37, 39, 34]

/-- parse_digits: `str::from_utf8(digits).unwrap().parse::<usize>().unwrap()`.
The string-to-usize parse fails (and the unwrap panics, modelled by none) when
the digit string is empty or its value overflows usize (64-bit). -/
def parseDigitsM (ds : List Nat) : Option Nat :=
  if ds.isEmpty then none
  else
    let n := ds.foldl (fun acc d => acc * 10 + (d - 48)) 0
    if n < 2 ^ 64 then some n else none

/-- The closure in term(): a single factor is returned unwrapped, any other
number of factors is wrapped in Seq. -/
def mkTerm : List RegExpr → RegExpr
  | [x] => x
  | xs => .Seq xs

/-- The closure in the third alternative of repeated(): `{n,m}` bodies, where
either digit list may be empty (None) and parse_digits may panic (none). -/
def mkRepeatedBounds (re : RegExpr) (ds1 ds2 : List Nat) : Option RegExpr :=
  match (if ds1.length = 0 then some none else (parseDigitsM ds1).map some) with
  | none => none
  | some atLeast =>
    match (if ds2.length = 0 then some none else (parseDigitsM ds2).map some) with
    | none => none
    | some atMost => some (.Repeated re atLeast atMost)

mutual

def regexF : Nat → PFn RegExpr
  | 0 => pFuelOut
  | f + 1 =>
    pChoice
      (pAttempt (pBind (termF f) (fun l =>
        pBind (pByte 124) (fun _ =>
          pMap (regexF f) (fun r => RegExpr.Either l r)))))
      (termF f)

def termF : Nat → PFn RegExpr
  | 0 => pFuelOut
  | f + 1 => pMap (pMany (factorF f)) mkTerm

def factorF : Nat → PFn RegExpr
  | 0 => pFuelOut
  | f + 1 =>
    pChoice
      (pChoice
        (pAttempt (pBind (atomF f) (fun re =>
          pMap (pByte 63) (fun _ => RegExpr.Optional re))))
        (pAttempt (repeatedF f)))
      (atomF f)

def repeatedF : Nat → PFn RegExpr
  | 0 => pFuelOut
  | f + 1 =>
    pChoice
      (pChoice
        (pAttempt (pBind (atomF f) (fun re =>
          pMap (pChoice (pByte 42) (pByte 43)) (fun c =>
            RegExpr.Repeated re (if c = 42 then none else some 1) none))))
        (pMapCrash
          (pAttempt (pBind (atomF f) (fun re =>
            pMap (pBetween (pByte 123) (pByte 125) (pMany pDigit)) (fun ds => (re, ds)))))
          (fun x => (parseDigitsM x.2).map (fun n =>
            RegExpr.Repeated x.1 (some n) (some n)))))
      (pMapCrash
        (pBind (atomF f) (fun re =>
          pMap (pBetween (pByte 123) (pByte 125)
            (pBind (pMany pDigit) (fun ds1 =>
              pBind (pByte 44) (fun _ =>
                pMap (pMany pDigit) (fun ds2 => (ds1, ds2))))))
            (fun ds => (re, ds))))
        (fun x => mkRepeatedBounds x.1 x.2.1 x.2.2))

def atomF : Nat → PFn RegExpr
  | 0 => pFuelOut
  | f + 1 =>
    pChoice
      (pChoice
        (pChoice
          (pChoice
            (pMap (pByte 46) (fun _ => RegExpr.AnyChar))
            (pAttempt (pBind (pByte 92) (fun _ => pMap pAny (fun c => RegExpr.Char c)))))
          (pMap (pChoice pLetter (pOneOf nonEscapable)) (fun c => RegExpr.Char c)))
        (pBetween (pByte 91) (pByte 93) (rangeF f)))
      (pBetween (pByte 40) (pByte 41) (regexF f))

def rangeF : Nat → PFn RegExpr
  | 0 => pFuelOut
  | f + 1 =>
    pChoice
      (pChoice
        (pBind (pByte 94) (fun _ => pMap (rangeF f) (fun re => RegExpr.Not re)))
        (pAttempt (pBind pLetter (fun a =>
          pBind (pByte 45) (fun _ =>
            pMap pLetter (fun b => RegExpr.Between a b))))))
      (pMap (pMany1 pLetter) (fun cs => RegExpr.Range cs))

end

/-- The closure in parse(): no anchors leaves the regex bare, otherwise SOF
and/or EOF are placed around it inside a Seq. -/
def wrapAnchors (sof : Option Nat) (re : RegExpr) (eof : Option Nat) : RegExpr :=
  if sof.isNone && eof.isNone then re
  else
    .Seq ((if sof.isSome then [RegExpr.SOF] else []) ++ [re] ++
      (if eof.isSome then [RegExpr.EOF] else []))

/-- The parser applied by parse(): between('/', '/', (optional '^', regex,
optional '$')) mapped through the anchor wrapping. -/
def patternF (f : Nat) : PFn RegExpr :=
  pBetween (pByte 47) (pByte 47)
    (pBind (pOptional (pByte 94)) (fun sof =>
      pBind (regexF f) (fun re =>
        pMap (pOptional (pByte 36)) (fun eof => wrapAnchors sof re eof))))

/-- Result of parse() on a byte string: Ok(RegExpr), Err (parse failure or
trailing unparsed input), a panic, or the fuel artifact. -/
inductive Outcome (α : Type) where
  | ok (a : α)
  | err
  | crash
  | fuelOut
deriving DecidableEq

/-- parse(pattern) over the pattern's bytes.  The fuel 5 * length + 6 covers
the grammar's recursion: every cycle through the mutually recursive grammar
functions consumes at least one input byte and traverses at most five of
them. -/
def parseOutcome (bs : List Nat) : Outcome RegExpr :=
  match patternF (5 * bs.length + 6) bs with
  | .ok _ re rest => if rest.isEmpty then .ok re else .err
  | .err _ _ => .err
  | .crash => .crash
  | .fuelOut => .fuelOut

def strBytes (s : String) : List Nat := s.data.map Char.toNat

def parseStr (s : String) : Outcome RegExpr := parseOutcome (strBytes s)

example : parseStr "/a/" = .ok (.Char 97) := rfl
example : parseStr "/ab/" = .ok (.Seq [.Char 97, .Char 98]) := rfl
example : parseStr "/^/" = .ok (.Seq [.SOF, .Seq []]) := rfl
example : parseStr "/^ab|cd$/" =
    .ok (.Seq [.SOF,
      .Either (.Seq [.Char 97, .Char 98]) (.Seq [.Char 99, .Char 100]), .EOF]) := rfl
example : parseStr "/a?b/" = .ok (.Seq [.Optional (.Char 97), .Char 98]) := rfl
example : parseStr "/a{12,15}/" = .ok (.Repeated (.Char 97) (some 12) (some 15)) := rfl
example : parseStr "/a{,15}/" = .ok (.Repeated (.Char 97) none (some 15)) := rfl
example : parseStr "/a{104,}/" = .ok (.Repeated (.Char 97) (some 104) none) := rfl
example : parseStr "/a*/" = .ok (.Repeated (.Char 97) none none) := rfl
example : parseStr "/a+/" = .ok (.Repeated (.Char 97) (some 1) none) := rfl
example : parseStr "/[a-d]/" = .ok (.Between 97 100) := rfl
example : parseStr "/[^abc]/" = .ok (.Not (.Range [97, 98, 99])) := rfl
example : parseStr "/[z-a]/" = .ok (.Between 122 97) := rfl
example : parseStr "/a{5,2}/" = .ok (.Repeated (.Char 97) (some 5) (some 2)) := rfl
example : parseOutcome [47, 97, 123, 125, 47] = .crash := rfl
example : parseStr "/a/b/" = .err := rfl
example : parseStr "abc" = .err := rfl
example : parseStr "/(/" = .err := rfl

/-! ## Execution context (execution.rs)

A ciphertext is modelled by the plaintext value it encrypts.  `Executed` is the
structural description of a computation tree, used as the cache key; an
`ExecutedResult` pairs a ciphertext (here its plaintext value) with its tag. -/

inductive Executed where
  | Constant (c : Nat)
  | CtPos (idx : Nat)
  | And (a : Executed) (b : Executed)
  | Or (a : Executed) (b : Executed)
  | Equal (a : Executed) (b : Executed)
  | GreaterOrEqual (a : Executed) (b : Executed)
  | LessOrEqual (a : Executed) (b : Executed)
  | Not (a : Executed)
deriving DecidableEq

/-- The mutable state of struct Execution: the cache (HashMap keyed by the
structural tag, modelled as an association list with structural lookup) and the
two counters. -/
structure ExecState where
  cache : List (Executed × Nat)
  ctOps : Nat
  cacheHits : Nat

def initExec : ExecState := ⟨[], 0, 0⟩

def cacheLookup : List (Executed × Nat) → Executed → Option Nat
  | [], _ => none
  | (k, v) :: rest, ctx => if k = ctx then some v else cacheLookup rest ctx

/-- with_cache: on a hit return the cached ciphertext paired with the tag and
bump the cache-hit counter; on a miss run the primitive and insert its result
under the tag. -/
def withCache (s : ExecState) (ctx : Executed) (f : ExecState → Nat × ExecState) :
    (Nat × Executed) × ExecState :=
  match cacheLookup s.cache ctx with
  | some v => ((v, ctx), { s with cacheHits := s.cacheHits + 1 })
  | none =>
    let r := f s
    ((r.1, ctx), { r.2 with cache := (ctx, r.1) :: r.2.cache })

/-- ct_constant: a trivially encrypted constant; touches neither the cache nor
the counters (it does not even receive the mutable state). -/
def ctConstant (c : Nat) : Nat × Executed := (c, .Constant c)

def ctTrue : Nat × Executed := ctConstant 1

def ctFalse : Nat × Executed := ctConstant 0

/-- unchecked_eq on the encrypted values. -/
def semEq (a b : Nat) : Nat := if a = b then 1 else 0

/-- unchecked_ge. -/
def semGe (a b : Nat) : Nat := if b ≤ a then 1 else 0

/-- unchecked_le. -/
def semLe (a b : Nat) : Nat := if a ≤ b then 1 else 0

def ctEq (s : ExecState) (a b : Nat × Executed) : (Nat × Executed) × ExecState :=
  withCache s (.Equal a.2 b.2)
    (fun st => (semEq a.1 b.1, { st with ctOps := st.ctOps + 1 }))

def ctGe (s : ExecState) (a b : Nat × Executed) : (Nat × Executed) × ExecState :=
  withCache s (.GreaterOrEqual a.2 b.2)
    (fun st => (semGe a.1 b.1, { st with ctOps := st.ctOps + 1 }))

def ctLe (s : ExecState) (a b : Nat × Executed) : (Nat × Executed) × ExecState :=
  withCache s (.LessOrEqual a.2 b.2)
    (fun st => (semLe a.1 b.1, { st with ctOps := st.ctOps + 1 }))

def ctAnd (s : ExecState) (a b : Nat × Executed) : (Nat × Executed) × ExecState :=
  withCache s (.And a.2 b.2)
    (fun st => (Nat.land a.1 b.1, { st with ctOps := st.ctOps + 1 }))

def ctOr (s : ExecState) (a b : Nat × Executed) : (Nat × Executed) × ExecState :=
  withCache s (.Or a.2 b.2)
    (fun st => (Nat.lor a.1 b.1, { st with ctOps := st.ctOps + 1 }))

/-- ct_not: unchecked_bitxor with ct_constant(1). -/
def ctNot (s : ExecState) (a : Nat × Executed) : (Nat × Executed) × ExecState :=
  withCache s (.Not a.2)
    (fun st => (Nat.xor a.1 (ctConstant 1).1, { st with ctOps := st.ctOps + 1 }))

/-- LazyExecution: a thunk forcing one branch through the execution context.
The none outcome models a panic while forcing (indexing an empty Range). -/
abbrev LazyExec := ExecState → Option ((Nat × Executed) × ExecState)

/-- The `|exec| exec.ct_true()` thunk. -/
def ctTrueL : LazyExec := fun s => some (ctTrue, s)

/-- The Char branch: equality of the captured content ciphertext against the
constant. -/
def charThunk (cv i c : Nat) : LazyExec := fun s =>
  some (ctEq s (cv, .CtPos i) (ctConstant c))

/-- The Between branch: (content[i] >= lo) and (content[i] <= hi). -/
def betweenThunk (cv i lo hi : Nat) : LazyExec := fun s =>
  let r1 := ctGe s (cv, .CtPos i) (ctConstant lo)
  let r2 := ctLe r1.2 (cv, .CtPos i) (ctConstant hi)
  some (ctAnd r2.2 r1.1 r2.1)

/-- The Range branch: `cs[1..]` folded with or over equality tests, seeded with
the test against `cs[0]`; indexing panics (none) when cs is empty. -/
def rangeThunk (cv i : Nat) (cs : List Nat) : LazyExec := fun s =>
  match cs with
  | [] => none
  | c0 :: rest =>
    let r0 := ctEq s (cv, .CtPos i) (ctConstant c0)
    some (rest.foldl (fun acc c =>
      let re := ctEq acc.2 (cv, .CtPos i) (ctConstant c)
      ctOr re.2 acc.1 re.1) r0)

/-- The Not wrapper: force the sub-branch, then ct_not. -/
def notThunk (b : LazyExec) : LazyExec := fun s =>
  match b s with
  | none => none
  | some (r, s1) => some (ctNot s1 r)

/-- The Seq / Repeated combiner: force both branches in order, then ct_and. -/
def andThunk (b1 b2 : LazyExec) : LazyExec := fun s =>
  match b1 s with
  | none => none
  | some (r1, s1) =>
    match b2 s1 with
    | none => none
    | some (r2, s2) => some (ctAnd s2 r1 r2)

/-! ## The engine (engine.rs) -/

/-- Engine outcome: a value, a panic, or the structural-fuel artifact. -/
inductive EOut (α : Type) where
  | ok (a : α)
  | crash
  | fuelOut

abbrev Branches := List (LazyExec × Nat)

/-- The flat_map expansion shared by the Seq fold and the Repeated row loop:
every accumulated branch at position pp is extended with every branch of the
next sub-expression at pp, combining the bits with and and keeping the
sub-branch's end position. -/
def expandAllG (g : Nat → EOut Branches) : Branches → EOut Branches
  | [] => .ok []
  | (bp, pp) :: more =>
    match g pp with
    | .ok bs =>
      match expandAllG g more with
      | .ok tl => .ok (bs.map (fun bx => (andThunk bp bx.1, bx.2)) ++ tl)
      | .crash => .crash
      | .fuelOut => .fuelOut
    | .crash => .crash
    | .fuelOut => .fuelOut

/-- The fold in the Seq arm over the remaining elements. -/
def seqFoldG (g : RegExpr → Nat → EOut Branches) : List RegExpr → Branches → EOut Branches
  | [], acc => .ok acc
  | x :: rest, acc =>
    match expandAllG (g x) acc with
    | .ok acc' => seqFoldG g rest acc'
    | .crash => .crash
    | .fuelOut => .fuelOut

/-- The row loop in the Repeated arm: each further repetition expands the
previous row with one more copy of the repeated sub-expression; the rows are
concatenated in increasing repetition count. -/
def repeatLoopG (g : Nat → EOut Branches) : Nat → Branches → EOut Branches
  | 0, _ => .ok []
  | k + 1, prev =>
    match expandAllG g prev with
    | .ok next =>
      match repeatLoopG g k next with
      | .ok tl => .ok (next ++ tl)
      | .crash => .crash
      | .fuelOut => .fuelOut
    | .crash => .crash
    | .fuelOut => .fuelOut

/-- build_branches.  The fuel makes the recursion structural (the Repeated arm
recurses on a freshly built Seq of copies of its child, which no structural or
size measure on the expression alone decreases); `heightRe` below computes a
sufficient fuel.  crash models the source's panics: the catch-all
`panic!("unmatched regex variant")` arm (reached for no variant: SOF and EOF
return from the first match) and the out-of-bounds indexing `re_xs[1..]` /
`re_xs[0]` in the Seq arm when the sequence is empty. -/
def buildBranchesF : Nat → List Nat → RegExpr → Nat → EOut Branches
  | 0, _, _, _ => .fuelOut
  | f + 1, content, re, cPos =>
    match re with
    | .SOF => if cPos = 0 then .ok [(ctTrueL, cPos)] else .ok []
    | .EOF => if cPos = content.length then .ok [(ctTrueL, cPos)] else .ok []
    | re =>
      if content.length ≤ cPos then .ok []
      else
        match re with
        | .Char c => .ok [(charThunk (content.getD cPos 0) cPos c, cPos + 1)]
        | .AnyChar => .ok [(ctTrueL, cPos + 1)]
        | .Not notRe =>
          match buildBranchesF f content notRe cPos with
          | .ok bs => .ok (bs.map (fun b => (notThunk b.1, b.2)))
          | .crash => .crash
          | .fuelOut => .fuelOut
        | .Either lRe rRe =>
          match buildBranchesF f content lRe cPos with
          | .ok ls =>
            match buildBranchesF f content rRe cPos with
            | .ok rs => .ok (ls ++ rs)
            | .crash => .crash
            | .fuelOut => .fuelOut
          | .crash => .crash
          | .fuelOut => .fuelOut
        | .Between lo hi =>
          .ok [(betweenThunk (content.getD cPos 0) cPos lo hi, cPos + 1)]
        | .Range cs =>
          .ok [(rangeThunk (content.getD cPos 0) cPos cs, cPos + 1)]
        | .Repeated repeatRe atLeast atMost =>
          let al := atLeast.getD 0
          let am := atMost.getD (content.length - cPos)
          if am < al then .ok []
          else
            let row0 : Branches := if al = 0 then [(ctTrueL, cPos)] else []
            match buildBranchesF f content (.Seq (List.replicate (max 1 al) repeatRe)) cPos with
            | .ok row1 =>
              match repeatLoopG (fun p => buildBranchesF f content repeatRe p) (am - al) row1 with
              | .ok rows => .ok (row0 ++ row1 ++ rows)
              | .crash => .crash
              | .fuelOut => .fuelOut
            | .crash => .crash
            | .fuelOut => .fuelOut
        | .Optional optRe =>
          match buildBranchesF f content optRe cPos with
          | .ok bs => .ok (bs ++ [(ctTrueL, cPos)])
          | .crash => .crash
          | .fuelOut => .fuelOut
        | .Seq reXs =>
          match reXs with
          | [] => .crash
          | x :: rest =>
            match buildBranchesF f content x cPos with
            | .ok acc => seqFoldG (fun y p => buildBranchesF f content y p) rest acc
            | .crash => .crash
            | .fuelOut => .fuelOut
        | _ => .crash

mutual

/-- A fuel sufficient for buildBranchesF on this expression (essentially the
expression's height, charging 2 for Repeated because its arm rebuilds a Seq of
copies of the child, whose flat height is the child's height plus one). -/
def heightRe : RegExpr → Nat
  | .SOF => 1
  | .EOF => 1
  | .Char _ => 1
  | .AnyChar => 1
  | .Between _ _ => 1
  | .Range _ => 1
  | .Not r => heightRe r + 1
  | .Either l r => max (heightRe l) (heightRe r) + 1
  | .Optional r => heightRe r + 1
  | .Repeated r _ _ => heightRe r + 2
  | .Seq xs => heightList xs + 1

def heightList : List RegExpr → Nat
  | [] => 0
  | x :: xs => max (heightRe x) (heightList xs)

end

/-- build_branches at its sufficient fuel. -/
def buildBranches (content : List Nat) (re : RegExpr) (cPos : Nat) : EOut Branches :=
  buildBranchesF (heightRe re) content re cPos

/-- The branch collection in has_match: for every start position in
[0, content.len()), all branches, keeping only the deferred bit. -/
def collectBranchesAux (content : List Nat) (re : RegExpr) : List Nat → EOut (List LazyExec)
  | [] => .ok []
  | i :: is_ =>
    match buildBranches content re i with
    | .ok bs =>
      match collectBranchesAux content re is_ with
      | .ok tl => .ok (bs.map Prod.fst ++ tl)
      | .crash => .crash
      | .fuelOut => .fuelOut
    | .crash => .crash
    | .fuelOut => .fuelOut

def collectBranches (content : List Nat) (re : RegExpr) : EOut (List LazyExec) :=
  collectBranchesAux content re (List.range content.length)

/-- The fold in has_match: force each remaining branch and or it into the
accumulated result. -/
def runFold (acc : (Nat × Executed) × ExecState) : List LazyExec →
    Option ((Nat × Executed) × ExecState)
  | [] => some acc
  | b :: rest =>
    match b acc.2 with
    | none => none
    | some (rb, s1) => runFold (ctOr s1 acc.1 rb) rest

/-- has_match: parse, enumerate branches over all start positions, then force
and or-fold them through a fresh execution context; no branches yields the
trivially encrypted 0. -/
def hasMatch (content : List Nat) (pattern : String) : Outcome Nat :=
  match parseStr pattern with
  | .ok re =>
    match collectBranches content re with
    | .ok branches =>
      match branches with
      | [] => .ok (ctConstant 0).1
      | b :: rest =>
        match b initExec with
        | none => .crash
        | some acc =>
          match runFold acc rest with
          | none => .crash
          | some out => .ok out.1.1
    | .crash => .crash
    | .fuelOut => .fuelOut
  | .err => .err
  | .crash => .crash
  | .fuelOut => .fuelOut

example : hasMatch (strBytes "ab") "/ab/" = .ok 1 := rfl
example : hasMatch (strBytes "ab") "/a?b/" = .ok 1 := rfl
example : hasMatch (strBytes " ab") "/^ab|cd$/" = .ok 0 := rfl
example : hasMatch (strBytes "ab") "/^ab|cd$/" = .ok 1 := rfl
example : hasMatch (strBytes "bc") "/a+bc/" = .ok 0 := rfl
example : hasMatch (strBytes "bc") "/a*bc/" = .ok 1 := rfl
example : hasMatch (strBytes "abdc") "/abc/" = .ok 0 := rfl
example : hasMatch [] "/a/" = .ok 0 := rfl
example : hasMatch (strBytes "a") "/^/" = .crash := rfl
example : hasMatch (strBytes "a") "//" = .crash := rfl
example : hasMatch (strBytes "cdaabc") "/a*bc/" = .ok 1 := rfl
example : hasMatch (strBytes "abcd") "/^ab|cd$/" = .ok 0 := rfl
example : hasMatch (strBytes "abcd") "/ab|cd$/" = .ok 1 := rfl
example : hasMatch (strBytes "cdbc") "/a+bc/" = .ok 0 := rfl
example : hasMatch (strBytes " cd") "/^ab|cd$/" = .ok 0 := rfl
example : hasMatch (strBytes "cd") "/^ab|cd$/" = .ok 1 := rfl
example : hasMatch (strBytes "123abc") "/abc/" = .ok 1 := rfl
example : hasMatch (strBytes "abc456") "/abc/" = .ok 1 := rfl
example : hasMatch (strBytes "aab") "/a\x7b2\x7db/" = .ok 1 := rfl
example : hasMatch (strBytes "ab") "/a\x7b2\x7db/" = .ok 0 := rfl
example : hasMatch (strBytes "aaab") "/a\x7b2,\x7db/" = .ok 1 := rfl
example : hasMatch (strBytes "ab") "/a\x7b,2\x7db/" = .ok 1 := rfl
example : hasMatch (strBytes "xay") "/[^a]/" = .ok 1 := rfl
example : hasMatch (strBytes "aaa") "/[^a]/" = .ok 0 := rfl
example : hasMatch (strBytes "b") "/[a-c]/" = .ok 1 := rfl
example : hasMatch (strBytes "d") "/[a-c]/" = .ok 0 := rfl

/-! ## Semantics of Executed trees and the cache invariant

Every ExecutedResult the engine produces carries a value equal to the pure
denotation of its tag over the content; every cache entry does likewise.  These
invariants drive the 0/1-result theorem. -/

def denoteE (content : List Nat) : Executed → Nat
  | .Constant c => c
  | .CtPos i => content.getD i 0
  | .And a b => Nat.land (denoteE content a) (denoteE content b)
  | .Or a b => Nat.lor (denoteE content a) (denoteE content b)
  | .Equal a b => semEq (denoteE content a) (denoteE content b)
  | .GreaterOrEqual a b => semGe (denoteE content a) (denoteE content b)
  | .LessOrEqual a b => semLe (denoteE content a) (denoteE content b)
  | .Not a => Nat.xor (denoteE content a) 1

def boolVal (v : Nat) : Prop := v = 0 ∨ v = 1

def CacheInv (content : List Nat) (s : ExecState) : Prop :=
  ∀ ctx v, (ctx, v) ∈ s.cache → v = denoteE content ctx

lemma initExec_inv (content : List Nat) : CacheInv content initExec := by
  intro ctx v hv
  simp [initExec] at hv

lemma cacheLookup_mem {l : List (Executed × Nat)} {ctx : Executed} {v : Nat}
    (h : cacheLookup l ctx = some v) : (ctx, v) ∈ l := by
  induction l with
  | nil => simp [cacheLookup] at h
  | cons kv rest ih =>
    rw [cacheLookup] at h
    split at h
    · rename_i hk
      cases h
      subst hk
      exact List.mem_cons_self _ _
    · exact List.mem_cons_of_mem _ (ih h)

lemma withCache_spec (content : List Nat) (s : ExecState) (ctx : Executed)
    (f : ExecState → Nat × ExecState) (v0 : Nat)
    (hf : ∀ st : ExecState, f st = (v0, { st with ctOps := st.ctOps + 1 }))
    (hv : v0 = denoteE content ctx) (hs : CacheInv content s) :
    (withCache s ctx f).1 = (v0, ctx) ∧ CacheInv content (withCache s ctx f).2 := by
  unfold withCache
  cases h : cacheLookup s.cache ctx with
  | none =>
    rw [hf s]
    refine ⟨rfl, ?_⟩
    intro ctx' v' hmem
    rcases List.mem_cons.mp hmem with heq | htl
    · cases heq
      exact hv
    · exact hs _ _ htl
  | some v =>
    have hvv : v = denoteE content ctx := hs _ _ (cacheLookup_mem h)
    refine ⟨?_, ?_⟩
    · simp [hvv, hv]
    · intro ctx' v' hmem
      exact hs _ _ hmem

lemma ctEq_spec (content : List Nat) {s : ExecState} (a b : Nat × Executed)
    (hs : CacheInv content s)
    (ha : a.1 = denoteE content a.2) (hb : b.1 = denoteE content b.2) :
    (ctEq s a b).1 = (semEq a.1 b.1, .Equal a.2 b.2) ∧ CacheInv content (ctEq s a b).2 :=
  withCache_spec content s _ _ _ (fun _ => rfl) (by simp [denoteE, ctConstant, ha, hb]) hs

lemma ctGe_spec (content : List Nat) {s : ExecState} (a b : Nat × Executed)
    (hs : CacheInv content s)
    (ha : a.1 = denoteE content a.2) (hb : b.1 = denoteE content b.2) :
    (ctGe s a b).1 = (semGe a.1 b.1, .GreaterOrEqual a.2 b.2) ∧
      CacheInv content (ctGe s a b).2 :=
  withCache_spec content s _ _ _ (fun _ => rfl) (by simp [denoteE, ctConstant, ha, hb]) hs

lemma ctLe_spec (content : List Nat) {s : ExecState} (a b : Nat × Executed)
    (hs : CacheInv content s)
    (ha : a.1 = denoteE content a.2) (hb : b.1 = denoteE content b.2) :
    (ctLe s a b).1 = (semLe a.1 b.1, .LessOrEqual a.2 b.2) ∧
      CacheInv content (ctLe s a b).2 :=
  withCache_spec content s _ _ _ (fun _ => rfl) (by simp [denoteE, ctConstant, ha, hb]) hs

lemma ctAnd_spec (content : List Nat) {s : ExecState} (a b : Nat × Executed)
    (hs : CacheInv content s)
    (ha : a.1 = denoteE content a.2) (hb : b.1 = denoteE content b.2) :
    (ctAnd s a b).1 = (Nat.land a.1 b.1, .And a.2 b.2) ∧ CacheInv content (ctAnd s a b).2 :=
  withCache_spec content s _ _ _ (fun _ => rfl) (by simp [denoteE, ctConstant, ha, hb]) hs

lemma ctOr_spec (content : List Nat) {s : ExecState} (a b : Nat × Executed)
    (hs : CacheInv content s)
    (ha : a.1 = denoteE content a.2) (hb : b.1 = denoteE content b.2) :
    (ctOr s a b).1 = (Nat.lor a.1 b.1, .Or a.2 b.2) ∧ CacheInv content (ctOr s a b).2 :=
  withCache_spec content s _ _ _ (fun _ => rfl) (by simp [denoteE, ctConstant, ha, hb]) hs

lemma ctNot_spec (content : List Nat) {s : ExecState} (a : Nat × Executed)
    (hs : CacheInv content s) (ha : a.1 = denoteE content a.2) :
    (ctNot s a).1 = (Nat.xor a.1 1, .Not a.2) ∧ CacheInv content (ctNot s a).2 :=
  withCache_spec content s _ _ _ (fun _ => rfl) (by simp [denoteE, ha]) hs

lemma boolVal_semEq (a b : Nat) : boolVal (semEq a b) := by
  unfold semEq boolVal
  split <;> simp

lemma boolVal_semGe (a b : Nat) : boolVal (semGe a b) := by
  unfold semGe boolVal
  split <;> simp

lemma boolVal_semLe (a b : Nat) : boolVal (semLe a b) := by
  unfold semLe boolVal
  split <;> simp

lemma boolVal_land {a b : Nat} (ha : boolVal a) (hb : boolVal b) :
    boolVal (Nat.land a b) := by
  rcases ha with rfl | rfl <;> rcases hb with rfl | rfl <;>
    first | exact Or.inl (by decide) | exact Or.inr (by decide)

lemma boolVal_lor {a b : Nat} (ha : boolVal a) (hb : boolVal b) :
    boolVal (Nat.lor a b) := by
  rcases ha with rfl | rfl <;> rcases hb with rfl | rfl <;>
    first | exact Or.inl (by decide) | exact Or.inr (by decide)

lemma boolVal_xor1 {a : Nat} (ha : boolVal a) : boolVal (Nat.xor a 1) := by
  rcases ha with rfl | rfl <;>
    first | exact Or.inl (by decide) | exact Or.inr (by decide)

/-! ## Goodness of branch thunks: forcing a branch in a consistent state either
panics (empty Range only) or yields a 0/1 value consistent with its tag and
preserves the cache invariant. -/

def GoodRes (content : List Nat) (r : Nat × Executed) : Prop :=
  r.1 = denoteE content r.2 ∧ boolVal r.1

def GoodT (content : List Nat) (t : LazyExec) : Prop :=
  ∀ s, CacheInv content s →
    t s = none ∨
      ∃ r s', t s = some (r, s') ∧ GoodRes content r ∧ CacheInv content s'

lemma goodT_ctTrueL (content : List Nat) : GoodT content ctTrueL := by
  intro s hs
  exact Or.inr ⟨ctTrue, s, rfl, ⟨rfl, Or.inr rfl⟩, hs⟩

lemma goodT_charThunk (content : List Nat) {cv : Nat} (i c : Nat)
    (h : cv = content.getD i 0) : GoodT content (charThunk cv i c) := by
  intro s hs
  obtain ⟨h1, h2⟩ := ctEq_spec content (cv, .CtPos i) (ctConstant c) hs h rfl
  refine Or.inr ⟨(ctEq s (cv, .CtPos i) (ctConstant c)).1,
    (ctEq s (cv, .CtPos i) (ctConstant c)).2, rfl, ⟨?_, ?_⟩, h2⟩
  · rw [h1]
    simp [denoteE, ctConstant, h]
  · rw [h1]
    exact boolVal_semEq _ _

lemma goodT_of_eq {content : List Nat} {t : LazyExec} {s : ExecState}
    {x : (Nat × Executed) × ExecState} (hts : t s = some x)
    (h1 : GoodRes content x.1) (h2 : CacheInv content x.2) :
    t s = none ∨
      ∃ r s', t s = some (r, s') ∧ GoodRes content r ∧ CacheInv content s' :=
  Or.inr ⟨x.1, x.2, by rw [hts], h1, h2⟩

lemma goodT_betweenThunk (content : List Nat) {cv : Nat} (i lo hi : Nat)
    (h : cv = content.getD i 0) : GoodT content (betweenThunk cv i lo hi) := by
  intro s hs
  obtain ⟨hg1, hg2⟩ := ctGe_spec content (cv, .CtPos i) (ctConstant lo) hs h rfl
  obtain ⟨hl1, hl2⟩ :=
    ctLe_spec content ((cv, .CtPos i)) (ctConstant hi) hg2 h rfl
  have hgd : (ctGe s (cv, .CtPos i) (ctConstant lo)).1.1 =
      denoteE content (ctGe s (cv, .CtPos i) (ctConstant lo)).1.2 := by
    rw [hg1]
    simp [denoteE, ctConstant, h]
  have hld : (ctLe (ctGe s (cv, .CtPos i) (ctConstant lo)).2
      (cv, .CtPos i) (ctConstant hi)).1.1 =
      denoteE content (ctLe (ctGe s (cv, .CtPos i) (ctConstant lo)).2
        (cv, .CtPos i) (ctConstant hi)).1.2 := by
    rw [hl1]
    simp [denoteE, ctConstant, h]
  obtain ⟨ha1, ha2⟩ := ctAnd_spec content _ _ hl2 hgd hld
  refine goodT_of_eq rfl ⟨?_, ?_⟩ ha2
  · rw [ha1]
    simp only [denoteE]
    rw [hgd, hld]
  · rw [ha1]
    exact boolVal_land (by rw [hg1]; exact boolVal_semGe _ _)
      (by rw [hl1]; exact boolVal_semLe _ _)

lemma goodT_notThunk (content : List Nat) {b : LazyExec} (hb : GoodT content b) :
    GoodT content (notThunk b) := by
  intro s hs
  rcases hb s hs with hnone | ⟨r, s1, heq, ⟨hr1, hr2⟩, hinv⟩
  · left
    simp [notThunk, hnone]
  · obtain ⟨hn1, hn2⟩ := ctNot_spec content r hinv hr1
    refine Or.inr ⟨(ctNot s1 r).1, (ctNot s1 r).2, ?_, ⟨?_, ?_⟩, hn2⟩
    · simp [notThunk, heq]
    · rw [hn1]
      simp [denoteE, hr1]
    · rw [hn1]
      exact boolVal_xor1 hr2

lemma goodT_andThunk (content : List Nat) {b1 b2 : LazyExec}
    (h1 : GoodT content b1) (h2 : GoodT content b2) :
    GoodT content (andThunk b1 b2) := by
  intro s hs
  rcases h1 s hs with hnone | ⟨r1, s1, heq1, ⟨hr11, hr12⟩, hinv1⟩
  · left
    simp [andThunk, hnone]
  · rcases h2 s1 hinv1 with hnone2 | ⟨r2, s2, heq2, ⟨hr21, hr22⟩, hinv2⟩
    · left
      simp [andThunk, heq1, hnone2]
    · obtain ⟨ha1, ha2⟩ := ctAnd_spec content r1 r2 hinv2 hr11 hr21
      refine Or.inr ⟨(ctAnd s2 r1 r2).1, (ctAnd s2 r1 r2).2, ?_, ⟨?_, ?_⟩, ha2⟩
      · simp [andThunk, heq1, heq2]
      · rw [ha1]
        simp [denoteE, hr11, hr21]
      · rw [ha1]
        exact boolVal_land hr12 hr22

lemma goodT_rangeThunk (content : List Nat) {cv : Nat} (i : Nat) (cs : List Nat)
    (h : cv = content.getD i 0) : GoodT content (rangeThunk cv i cs) := by
  intro s hs
  cases cs with
  | nil =>
    left
    rfl
  | cons c0 rest =>
    rw [rangeThunk]
    obtain ⟨h01, h02⟩ := ctEq_spec content (cv, .CtPos i) (ctConstant c0) hs h rfl
    have main : ∀ (l : List Nat) (acc : (Nat × Executed) × ExecState),
        GoodRes content acc.1 → CacheInv content acc.2 →
        GoodRes content (l.foldl (fun acc c =>
          let re := ctEq acc.2 (cv, .CtPos i) (ctConstant c)
          ctOr re.2 acc.1 re.1) acc).1 ∧
        CacheInv content (l.foldl (fun acc c =>
          let re := ctEq acc.2 (cv, .CtPos i) (ctConstant c)
          ctOr re.2 acc.1 re.1) acc).2 := by
      intro l
      induction l with
      | nil => intro acc hr hinv; exact ⟨hr, hinv⟩
      | cons c l ih =>
        intro acc hr hinv
        obtain ⟨he1, he2⟩ := ctEq_spec content (cv, .CtPos i) (ctConstant c) hinv h rfl
        have heb : (ctEq acc.2 (cv, .CtPos i) (ctConstant c)).1.1 =
            denoteE content (ctEq acc.2 (cv, .CtPos i) (ctConstant c)).1.2 := by
          rw [he1]
          simp [denoteE, ctConstant, h]
        obtain ⟨ho1, ho2⟩ := ctOr_spec content acc.1
          ((ctEq acc.2 (cv, .CtPos i) (ctConstant c)).1) he2 hr.1 heb
        have hstep : GoodRes content
            (ctOr (ctEq acc.2 (cv, .CtPos i) (ctConstant c)).2 acc.1
              (ctEq acc.2 (cv, .CtPos i) (ctConstant c)).1).1 := by
          constructor
          · rw [ho1]
            simp only [denoteE]
            rw [hr.1, heb]
          · rw [ho1]
            exact boolVal_lor hr.2 (by rw [he1]; exact boolVal_semEq _ _)
        exact ih _ hstep ho2
    have hr0 : GoodRes content (ctEq s (cv, .CtPos i) (ctConstant c0)).1 := by
      constructor
      · rw [h01]
        simp [denoteE, ctConstant, h]
      · rw [h01]
        exact boolVal_semEq _ _
    obtain ⟨hg, hi⟩ := main rest _ hr0 h02
    exact Or.inr ⟨_, _, rfl, hg, hi⟩

/-! ## Goodness of every branch list the engine builds -/

def GoodBr (content : List Nat) (bs : Branches) : Prop := ∀ b ∈ bs, GoodT content b.1

lemma expandAllG_good {content : List Nat} {g : Nat → EOut Branches}
    (hg : ∀ p bs, g p = .ok bs → GoodBr content bs) :
    ∀ (acc out : Branches), GoodBr content acc → expandAllG g acc = .ok out →
      GoodBr content out := by
  intro acc
  induction acc with
  | nil =>
    intro out _ h
    rw [expandAllG] at h
    cases h
    intro b hb
    simp at hb
  | cons hd tl ih =>
    intro out hacc h
    obtain ⟨bp, pp⟩ := hd
    rw [expandAllG] at h
    split at h
    · rename_i bs hgp
      split at h
      · rename_i tl' hrest
        cases h
        intro b hb
        rcases List.mem_append.mp hb with hmap | htl
        · obtain ⟨bx, hbx, rfl⟩ := List.mem_map.mp hmap
          exact goodT_andThunk content (hacc (bp, pp) (List.mem_cons_self _ _))
            (hg pp bs hgp bx hbx)
        · exact ih tl' (fun b hb => hacc b (List.mem_cons_of_mem _ hb)) hrest b htl
      · exact nomatch h
      · exact nomatch h
    · exact nomatch h
    · exact nomatch h

lemma seqFoldG_good {content : List Nat} {g : RegExpr → Nat → EOut Branches}
    (hg : ∀ x p bs, g x p = .ok bs → GoodBr content bs) :
    ∀ (xs : List RegExpr) (acc out : Branches), GoodBr content acc →
      seqFoldG g xs acc = .ok out → GoodBr content out := by
  intro xs
  induction xs with
  | nil =>
    intro acc out hacc h
    rw [seqFoldG] at h
    cases h
    exact hacc
  | cons x rest ih =>
    intro acc out hacc h
    rw [seqFoldG] at h
    split at h
    · rename_i acc' hexp
      exact ih acc' out (expandAllG_good (hg x) acc acc' hacc hexp) h
    · exact nomatch h
    · exact nomatch h

lemma repeatLoopG_good {content : List Nat} {g : Nat → EOut Branches}
    (hg : ∀ p bs, g p = .ok bs → GoodBr content bs) :
    ∀ (k : Nat) (prev out : Branches), GoodBr content prev →
      repeatLoopG g k prev = .ok out → GoodBr content out := by
  intro k
  induction k with
  | zero =>
    intro prev out _ h
    rw [repeatLoopG] at h
    cases h
    intro b hb
    simp at hb
  | succ k ih =>
    intro prev out hprev h
    rw [repeatLoopG] at h
    split at h
    · rename_i next hexp
      have hnext := expandAllG_good hg prev next hprev hexp
      split at h
      · rename_i tl hloop
        cases h
        intro b hb
        rcases List.mem_append.mp hb with h1 | h2
        · exact hnext b h1
        · exact ih next tl hnext hloop b h2
      · exact nomatch h
      · exact nomatch h
    · exact nomatch h
    · exact nomatch h

lemma buildBranchesF_good :
    ∀ (f : Nat) (content : List Nat) (re : RegExpr) (cPos : Nat) (bs : Branches),
      buildBranchesF f content re cPos = .ok bs → GoodBr content bs := by
  intro f
  induction f with
  | zero =>
    intro content re cPos bs h
    exact nomatch h
  | succ f ih =>
    intro content re cPos bs h
    cases re with
    | SOF =>
      simp only [buildBranchesF] at h
      split at h
      · cases h
        intro b hb
        simp at hb
        subst hb
        exact goodT_ctTrueL content
      · cases h
        intro b hb
        simp at hb
    | EOF =>
      simp only [buildBranchesF] at h
      split at h
      · cases h
        intro b hb
        simp at hb
        subst hb
        exact goodT_ctTrueL content
      · cases h
        intro b hb
        simp at hb
    | Char c =>
      simp only [buildBranchesF] at h
      split at h
      · cases h
        intro b hb
        simp at hb
      · cases h
        intro b hb
        rw [List.mem_singleton] at hb
        subst hb
        exact goodT_charThunk content cPos c rfl
    | AnyChar =>
      simp only [buildBranchesF] at h
      split at h
      · cases h
        intro b hb
        simp at hb
      · cases h
        intro b hb
        simp at hb
        subst hb
        exact goodT_ctTrueL content
    | Not notRe =>
      simp only [buildBranchesF] at h
      split at h
      · cases h
        intro b hb
        simp at hb
      · split at h
        · rename_i bs0 hrec
          cases h
          intro b hb
          obtain ⟨b0, hb0, rfl⟩ := List.mem_map.mp hb
          exact goodT_notThunk content (ih content notRe cPos bs0 hrec b0 hb0)
        · exact nomatch h
        · exact nomatch h
    | Either lRe rRe =>
      simp only [buildBranchesF] at h
      split at h
      · cases h
        intro b hb
        simp at hb
      · split at h
        · rename_i ls hls
          split at h
          · rename_i rs hrs
            cases h
            intro b hb
            rcases List.mem_append.mp hb with h1 | h2
            · exact ih content lRe cPos ls hls b h1
            · exact ih content rRe cPos rs hrs b h2
          · exact nomatch h
          · exact nomatch h
        · exact nomatch h
        · exact nomatch h
    | Between lo hi =>
      simp only [buildBranchesF] at h
      split at h
      · cases h
        intro b hb
        simp at hb
      · cases h
        intro b hb
        rw [List.mem_singleton] at hb
        subst hb
        exact goodT_betweenThunk content cPos lo hi rfl
    | Range cs =>
      simp only [buildBranchesF] at h
      split at h
      · cases h
        intro b hb
        simp at hb
      · cases h
        intro b hb
        rw [List.mem_singleton] at hb
        subst hb
        exact goodT_rangeThunk content cPos cs rfl
    | Repeated r al am =>
      simp only [buildBranchesF] at h
      split at h
      · cases h
        intro b hb
        simp at hb
      · split at h
        · cases h
          intro b hb
          simp at hb
        · split at h
          · rename_i row1 hrow1
            split at h
            · rename_i rows hloop
              cases h
              intro b hb
              have hrow1g := ih content _ cPos row1 hrow1
              have hrowsg := repeatLoopG_good
                (fun p bs h => ih content r p bs h) _ row1 rows hrow1g hloop
              rcases List.mem_append.mp hb with h1 | h2
              · rcases List.mem_append.mp h1 with h0 | hr1
                · revert h0
                  split
                  · intro h0
                    rw [List.mem_singleton] at h0
                    subst h0
                    exact goodT_ctTrueL content
                  · intro h0
                    simp at h0
                · exact hrow1g b hr1
              · exact hrowsg b h2
            · exact nomatch h
            · exact nomatch h
          · exact nomatch h
          · exact nomatch h
    | Optional optRe =>
      simp only [buildBranchesF] at h
      split at h
      · cases h
        intro b hb
        simp at hb
      · split at h
        · rename_i bs0 hrec
          cases h
          intro b hb
          rcases List.mem_append.mp hb with h1 | h2
          · exact ih content optRe cPos bs0 hrec b h1
          · rw [List.mem_singleton] at h2
            subst h2
            exact goodT_ctTrueL content
        · exact nomatch h
        · exact nomatch h
    | Seq reXs =>
      cases reXs with
      | nil =>
        simp only [buildBranchesF] at h
        split at h
        · cases h
          intro b hb
          simp at hb
        · exact nomatch h
      | cons x rest =>
        simp only [buildBranchesF] at h
        split at h
        · cases h
          intro b hb
          simp at hb
        · split at h
          · rename_i acc hinit
            exact seqFoldG_good (fun y p bs h => ih content y p bs h) rest acc bs
              (ih content x cPos acc hinit) h
          · exact nomatch h
          · exact nomatch h

lemma collectBranchesAux_good {content : List Nat} {re : RegExpr} :
    ∀ (is_ : List Nat) (ts : List LazyExec),
      collectBranchesAux content re is_ = .ok ts → ∀ t ∈ ts, GoodT content t := by
  intro is_
  induction is_ with
  | nil =>
    intro ts h
    rw [collectBranchesAux] at h
    cases h
    intro t ht
    simp at ht
  | cons i is_ ih =>
    intro ts h
    rw [collectBranchesAux] at h
    split at h
    · rename_i bs hbb
      split at h
      · rename_i tl htl
        cases h
        intro t ht
        rcases List.mem_append.mp ht with h1 | h2
        · obtain ⟨b, hb, rfl⟩ := List.mem_map.mp h1
          exact buildBranchesF_good (heightRe re) content re i bs hbb b hb
        · exact ih tl htl t h2
      · exact nomatch h
      · exact nomatch h
    · exact nomatch h
    · exact nomatch h

lemma runFold_good {content : List Nat} :
    ∀ (branches : List LazyExec) (acc out : (Nat × Executed) × ExecState),
      (∀ t ∈ branches, GoodT content t) →
      GoodRes content acc.1 → CacheInv content acc.2 →
      runFold acc branches = some out → GoodRes content out.1 := by
  intro branches
  induction branches with
  | nil =>
    intro acc out _ hr _ h
    rw [runFold] at h
    cases h
    exact hr
  | cons b rest ih =>
    intro acc out hg hr hinv h
    rw [runFold] at h
    split at h
    · exact nomatch h
    · rename_i rb s1 heq
      rcases hg b (List.mem_cons_self _ _) acc.2 hinv with hnone | ⟨r, s', heq', hgr, hinv'⟩
      · rw [hnone] at heq
        exact nomatch heq
      · rw [heq'] at heq
        have h2 := Option.some.inj heq
        injection h2 with h2a h2b
        subst h2a
        subst h2b
        obtain ⟨ho1, ho2⟩ := ctOr_spec content acc.1 r hinv' hr.1 hgr.1
        refine ih (ctOr s' acc.1 r) out (fun t ht => hg t (List.mem_cons_of_mem _ ht))
          ⟨?_, ?_⟩ ho2 h
        · rw [ho1]
          simp only [denoteE]
          rw [hr.1, hgr.1]
        · rw [ho1]
          exact boolVal_lor hr.2 hgr.2

/-- C2 helper: the result of an Ok run of has_match is the forced value of a
good fold. -/
theorem hasMatch_bool (content : List Nat) (pattern : String) (v : Nat)
    (h : hasMatch content pattern = .ok v) : boolVal v := by
  rw [hasMatch] at h
  split at h
  · split at h
    · rename_i re hre branches hcol
      split at h
      · cases h
        exact Or.inl rfl
      · rename_i b rest
        split at h
        · exact nomatch h
        · rename_i acc hforce
          split at h
          · exact nomatch h
          · rename_i out hfold
            cases h
            have hts := collectBranchesAux_good (List.range content.length) (b :: rest) hcol
            rcases hts b (List.mem_cons_self _ _) initExec (initExec_inv content) with
              hnone | ⟨r, s', heq', hgr, hinv'⟩
            · rw [hnone] at hforce
              exact nomatch hforce
            · rw [heq'] at hforce
              have h2 := Option.some.inj hforce
              subst h2
              exact (runFold_good rest (r, s') out
                (fun t ht => hts t (List.mem_cons_of_mem _ ht)) hgr hinv' hfold).2
    · exact nomatch h
    · exact nomatch h
  · exact nomatch h
  · exact nomatch h
  · exact nomatch h

/-! ## Position bounds of built branches -/

lemma expandAllG_pos {g : Nat → EOut Branches} {len : Nat}
    (hg : ∀ p bs, p ≤ len → g p = .ok bs → ∀ b ∈ bs, p ≤ b.2 ∧ b.2 ≤ len) :
    ∀ (lo : Nat) (acc out : Branches), (∀ b ∈ acc, lo ≤ b.2 ∧ b.2 ≤ len) →
      expandAllG g acc = .ok out → ∀ b ∈ out, lo ≤ b.2 ∧ b.2 ≤ len := by
  intro lo acc
  induction acc with
  | nil =>
    intro out _ h
    rw [expandAllG] at h
    cases h
    intro b hb
    simp at hb
  | cons hd tl ih =>
    intro out hacc h
    obtain ⟨bp, pp⟩ := hd
    rw [expandAllG] at h
    split at h
    · rename_i bs hgp
      split at h
      · rename_i tl' hrest
        cases h
        intro b hb
        rcases List.mem_append.mp hb with hmap | htl
        · obtain ⟨bx, hbx, rfl⟩ := List.mem_map.mp hmap
          obtain ⟨hpp1, hpp2⟩ := hacc (bp, pp) (List.mem_cons_self _ _)
          obtain ⟨hx1, hx2⟩ := hg pp bs hpp2 hgp bx hbx
          exact ⟨le_trans hpp1 hx1, hx2⟩
        · exact ih tl' (fun b hb => hacc b (List.mem_cons_of_mem _ hb)) hrest b htl
      · exact nomatch h
      · exact nomatch h
    · exact nomatch h
    · exact nomatch h

lemma seqFoldG_pos {g : RegExpr → Nat → EOut Branches} {len : Nat}
    (hg : ∀ x p bs, p ≤ len → g x p = .ok bs → ∀ b ∈ bs, p ≤ b.2 ∧ b.2 ≤ len) :
    ∀ (xs : List RegExpr) (lo : Nat) (acc out : Branches),
      (∀ b ∈ acc, lo ≤ b.2 ∧ b.2 ≤ len) →
      seqFoldG g xs acc = .ok out → ∀ b ∈ out, lo ≤ b.2 ∧ b.2 ≤ len := by
  intro xs
  induction xs with
  | nil =>
    intro lo acc out hacc h
    rw [seqFoldG] at h
    cases h
    exact hacc
  | cons x rest ih =>
    intro lo acc out hacc h
    rw [seqFoldG] at h
    split at h
    · rename_i acc' hexp
      exact ih lo acc' out (expandAllG_pos (hg x) lo acc acc' hacc hexp) h
    · exact nomatch h
    · exact nomatch h

lemma repeatLoopG_pos {g : Nat → EOut Branches} {len : Nat}
    (hg : ∀ p bs, p ≤ len → g p = .ok bs → ∀ b ∈ bs, p ≤ b.2 ∧ b.2 ≤ len) :
    ∀ (k : Nat) (lo : Nat) (prev out : Branches),
      (∀ b ∈ prev, lo ≤ b.2 ∧ b.2 ≤ len) →
      repeatLoopG g k prev = .ok out → ∀ b ∈ out, lo ≤ b.2 ∧ b.2 ≤ len := by
  intro k
  induction k with
  | zero =>
    intro lo prev out _ h
    rw [repeatLoopG] at h
    cases h
    intro b hb
    simp at hb
  | succ k ih =>
    intro lo prev out hprev h
    rw [repeatLoopG] at h
    split at h
    · rename_i next hexp
      have hnext := expandAllG_pos hg lo prev next hprev hexp
      split at h
      · rename_i tl hloop
        cases h
        intro b hb
        rcases List.mem_append.mp hb with h1 | h2
        · exact hnext b h1
        · exact ih lo next tl hnext hloop b h2
      · exact nomatch h
      · exact nomatch h
    · exact nomatch h
    · exact nomatch h

lemma buildBranchesF_pos :
    ∀ (f : Nat) (content : List Nat) (re : RegExpr) (cPos : Nat) (bs : Branches),
      cPos ≤ content.length → buildBranchesF f content re cPos = .ok bs →
      ∀ b ∈ bs, cPos ≤ b.2 ∧ b.2 ≤ content.length := by
  intro f
  induction f with
  | zero =>
    intro content re cPos bs _ h
    exact nomatch h
  | succ f ih =>
    intro content re cPos bs hpos h
    cases re with
    | SOF =>
      simp only [buildBranchesF] at h
      split at h
      · cases h
        intro b hb
        rw [List.mem_singleton] at hb
        subst hb
        exact ⟨le_refl _, hpos⟩
      · cases h
        intro b hb
        simp at hb
    | EOF =>
      simp only [buildBranchesF] at h
      split at h
      · cases h
        intro b hb
        rw [List.mem_singleton] at hb
        subst hb
        exact ⟨le_refl _, hpos⟩
      · cases h
        intro b hb
        simp at hb
    | Char c =>
      simp only [buildBranchesF] at h
      split at h
      · cases h
        intro b hb
        simp at hb
      · rename_i hguard
        cases h
        intro b hb
        rw [List.mem_singleton] at hb
        subst hb
        exact ⟨Nat.le_succ _, by omega⟩
    | AnyChar =>
      simp only [buildBranchesF] at h
      split at h
      · cases h
        intro b hb
        simp at hb
      · rename_i hguard
        cases h
        intro b hb
        rw [List.mem_singleton] at hb
        subst hb
        exact ⟨Nat.le_succ _, by omega⟩
    | Not notRe =>
      simp only [buildBranchesF] at h
      split at h
      · cases h
        intro b hb
        simp at hb
      · split at h
        · rename_i bs0 hrec
          cases h
          intro b hb
          obtain ⟨b0, hb0, rfl⟩ := List.mem_map.mp hb
          exact ih content notRe cPos bs0 hpos hrec b0 hb0
        · exact nomatch h
        · exact nomatch h
    | Either lRe rRe =>
      simp only [buildBranchesF] at h
      split at h
      · cases h
        intro b hb
        simp at hb
      · split at h
        · rename_i ls hls
          split at h
          · rename_i rs hrs
            cases h
            intro b hb
            rcases List.mem_append.mp hb with h1 | h2
            · exact ih content lRe cPos ls hpos hls b h1
            · exact ih content rRe cPos rs hpos hrs b h2
          · exact nomatch h
          · exact nomatch h
        · exact nomatch h
        · exact nomatch h
    | Between lo hi =>
      simp only [buildBranchesF] at h
      split at h
      · cases h
        intro b hb
        simp at hb
      · rename_i hguard
        cases h
        intro b hb
        rw [List.mem_singleton] at hb
        subst hb
        exact ⟨Nat.le_succ _, by omega⟩
    | Range cs =>
      simp only [buildBranchesF] at h
      split at h
      · cases h
        intro b hb
        simp at hb
      · rename_i hguard
        cases h
        intro b hb
        rw [List.mem_singleton] at hb
        subst hb
        exact ⟨Nat.le_succ _, by omega⟩
    | Repeated r al am =>
      simp only [buildBranchesF] at h
      split at h
      · cases h
        intro b hb
        simp at hb
      · split at h
        · cases h
          intro b hb
          simp at hb
        · split at h
          · rename_i row1 hrow1
            split at h
            · rename_i rows hloop
              cases h
              intro b hb
              have hrow1p := ih content _ cPos row1 hpos hrow1
              have hrowsp := repeatLoopG_pos
                (fun p bs hp h => ih content r p bs hp h) _ cPos row1 rows hrow1p hloop
              rcases List.mem_append.mp hb with h1 | h2
              · rcases List.mem_append.mp h1 with h0 | hr1
                · revert h0
                  split
                  · intro h0
                    rw [List.mem_singleton] at h0
                    subst h0
                    exact ⟨le_refl _, hpos⟩
                  · intro h0
                    simp at h0
                · exact hrow1p b hr1
              · exact hrowsp b h2
            · exact nomatch h
            · exact nomatch h
          · exact nomatch h
          · exact nomatch h
    | Optional optRe =>
      simp only [buildBranchesF] at h
      split at h
      · cases h
        intro b hb
        simp at hb
      · split at h
        · rename_i bs0 hrec
          cases h
          intro b hb
          rcases List.mem_append.mp hb with h1 | h2
          · exact ih content optRe cPos bs0 hpos hrec b h1
          · rw [List.mem_singleton] at h2
            subst h2
            exact ⟨le_refl _, hpos⟩
        · exact nomatch h
        · exact nomatch h
    | Seq reXs =>
      cases reXs with
      | nil =>
        simp only [buildBranchesF] at h
        split at h
        · cases h
          intro b hb
          simp at hb
        · exact nomatch h
      | cons x rest =>
        simp only [buildBranchesF] at h
        split at h
        · cases h
          intro b hb
          simp at hb
        · split at h
          · rename_i acc hinit
            exact seqFoldG_pos (fun y p bs hp h => ih content y p bs hp h) rest cPos acc bs
              (ih content x cPos acc hpos hinit) h
          · exact nomatch h
          · exact nomatch h

/-! ## Properties of every AST a successful parse can return

The only Range constructor in the grammar is built from many1(letter), so every
Range node in a parsed AST carries a non-empty byte list. -/

mutual

def rnOK : RegExpr → Bool
  | .SOF => true
  | .EOF => true
  | .Char _ => true
  | .AnyChar => true
  | .Between _ _ => true
  | .Range cs => !cs.isEmpty
  | .Not r => rnOK r
  | .Either l r => rnOK l && rnOK r
  | .Optional r => rnOK r
  | .Repeated r _ _ => rnOK r
  | .Seq xs => rnList xs

def rnList : List RegExpr → Bool
  | [] => true
  | x :: xs => rnOK x && rnList xs

end

lemma rnList_iff (xs : List RegExpr) :
    rnList xs = true ↔ ∀ x ∈ xs, rnOK x = true := by
  induction xs with
  | nil => simp [rnList]
  | cons x tl ih =>
    rw [rnList]
    simp only [Bool.and_eq_true, ih, List.mem_cons]
    constructor
    · rintro ⟨h1, h2⟩ y (rfl | hy)
      · exact h1
      · exact h2 y hy
    · intro h
      exact ⟨h x (Or.inl rfl), fun y hy => h y (Or.inr hy)⟩

/-- All outputs of a parser satisfy Q. -/
def OkP (p : PFn α) (Q : α → Prop) : Prop :=
  ∀ inp c a rest, p inp = .ok c a rest → Q a

lemma okP_trivial {p : PFn α} : OkP p (fun _ => True) := by
  intro _ _ _ _ _
  trivial

lemma okP_fuelOut {Q : α → Prop} : OkP pFuelOut Q := by
  intro _ _ _ _ h
  exact nomatch h

lemma okP_map {p : PFn α} {g : α → β} {Q : α → Prop} {R : β → Prop}
    (hp : OkP p Q) (hg : ∀ a, Q a → R (g a)) : OkP (pMap p g) R := by
  intro inp c b rest h
  rw [pMap] at h
  split at h
  · rename_i c0 a rest0 heq
    cases h
    exact hg a (hp inp _ a _ heq)
  · exact nomatch h
  · exact nomatch h
  · exact nomatch h

lemma okP_mapCrash {p : PFn α} {g : α → Option β} {Q : α → Prop} {R : β → Prop}
    (hp : OkP p Q) (hg : ∀ a b, Q a → g a = some b → R b) : OkP (pMapCrash p g) R := by
  intro inp c b rest h
  rw [pMapCrash] at h
  split at h
  · rename_i c0 a rest0 heq
    split at h
    · rename_i b0 hb0
      cases h
      exact hg a _ (hp inp _ a _ heq) hb0
    · exact nomatch h
  · exact nomatch h
  · exact nomatch h
  · exact nomatch h

lemma okP_bind {p : PFn α} {q : α → PFn β} {Q : α → Prop} {R : β → Prop}
    (hp : OkP p Q) (hq : ∀ a, Q a → OkP (q a) R) : OkP (pBind p q) R := by
  intro inp c b rest h
  rw [pBind] at h
  split at h
  · rename_i c0 a rest0 heq
    split at h
    · rename_i c1 b1 rest1 heq1
      cases h
      exact hq a (hp inp _ a _ heq) rest0 _ _ _ heq1
    · exact nomatch h
    · exact nomatch h
    · exact nomatch h
  · exact nomatch h
  · exact nomatch h
  · exact nomatch h

lemma okP_choice {p q : PFn α} {Q : α → Prop}
    (hp : OkP p Q) (hq : OkP q Q) : OkP (pChoice p q) Q := by
  intro inp c a rest h
  rw [pChoice] at h
  cases heq : p inp with
  | ok c0 a0 r0 =>
    simp only [heq] at h
    cases h
    exact hp inp _ _ _ heq
  | err c0 r0 =>
    cases c0 with
    | false =>
      simp only [heq] at h
      exact hq inp c a rest h
    | true =>
      simp only [heq] at h
      exact nomatch h
  | crash =>
    simp only [heq] at h
    exact nomatch h
  | fuelOut =>
    simp only [heq] at h
    exact nomatch h

lemma okP_attempt {p : PFn α} {Q : α → Prop} (hp : OkP p Q) : OkP (pAttempt p) Q := by
  intro inp c a rest h
  rw [pAttempt] at h
  cases heq : p inp with
  | ok c0 a0 r0 =>
    simp only [heq] at h
    cases h
    exact hp inp _ _ _ heq
  | err c0 r0 =>
    simp only [heq] at h
    exact nomatch h
  | crash =>
    simp only [heq] at h
    exact nomatch h
  | fuelOut =>
    simp only [heq] at h
    exact nomatch h

lemma okP_manyGo {p : PFn α} {Q : α → Prop} (hp : OkP p Q) :
    ∀ (f : Nat) (inp : List Nat) (c : Bool) (as_ : List α) (rest : List Nat),
      pManyGo p f inp = .ok c as_ rest → ∀ a ∈ as_, Q a := by
  intro f
  induction f with
  | zero =>
    intro inp c as_ rest h
    exact nomatch h
  | succ f ih =>
    intro inp c as_ rest h
    rw [pManyGo] at h
    split at h
    · cases h
      intro a ha
      simp at ha
    · exact nomatch h
    · exact nomatch h
    · exact nomatch h
    · rename_i a0 rest0 heq
      split at h
      · rename_i c1 tl rest1 heq1
        cases h
        intro a ha
        rcases List.mem_cons.mp ha with rfl | htl
        · exact hp inp true a rest0 heq
        · exact ih rest0 _ _ _ heq1 a htl
      · exact nomatch h
      · exact nomatch h
      · exact nomatch h
    · exact nomatch h

lemma okP_many {p : PFn α} {Q : α → Prop} (hp : OkP p Q) :
    OkP (pMany p) (fun as_ => ∀ a ∈ as_, Q a) := by
  intro inp c as_ rest h
  exact okP_manyGo hp (inp.length + 1) inp c as_ rest h

lemma okP_many1 {p : PFn α} {Q : α → Prop} (hp : OkP p Q) :
    OkP (pMany1 p) (fun as_ => as_ ≠ [] ∧ ∀ a ∈ as_, Q a) := by
  rw [pMany1]
  refine okP_bind hp (fun a ha => okP_map (okP_many hp) ?_)
  intro tl htl
  refine ⟨List.cons_ne_nil _ _, ?_⟩
  intro x hx
  rcases List.mem_cons.mp hx with rfl | hxtl
  · exact ha
  · exact htl x hxtl

lemma okP_between {opn : PFn γ} {cls : PFn δ} {p : PFn α} {Q : α → Prop}
    (hp : OkP p Q) : OkP (pBetween opn cls p) Q := by
  rw [pBetween]
  exact okP_bind okP_trivial (fun _ _ => okP_bind hp (fun a ha =>
    okP_map okP_trivial (fun _ _ => ha)))

lemma rn_mkTerm {xs : List RegExpr} (h : ∀ x ∈ xs, rnOK x = true) :
    rnOK (mkTerm xs) = true := by
  cases xs with
  | nil => simp [mkTerm, rnOK, rnList]
  | cons x tl =>
    cases tl with
    | nil => exact h x (List.mem_singleton.mpr rfl)
    | cons y tl2 =>
      simp only [mkTerm, rnOK]
      exact (rnList_iff _).mpr h

lemma rn_mkRepeatedBounds {re b : RegExpr} {ds1 ds2 : List Nat}
    (hre : rnOK re = true) (h : mkRepeatedBounds re ds1 ds2 = some b) :
    rnOK b = true := by
  rw [mkRepeatedBounds] at h
  split at h
  · exact nomatch h
  · split at h
    · exact nomatch h
    · cases h
      rw [rnOK]
      exact hre

lemma rn_wrapAnchors {re : RegExpr} (sof eof : Option Nat) (hre : rnOK re = true) :
    rnOK (wrapAnchors sof re eof) = true := by
  cases sof <;> cases eof <;>
    simp [wrapAnchors, rnOK, rnList, hre]

lemma grammar_rn (f : Nat) :
    OkP (regexF f) (fun re => rnOK re = true) ∧
    OkP (termF f) (fun re => rnOK re = true) ∧
    OkP (factorF f) (fun re => rnOK re = true) ∧
    OkP (repeatedF f) (fun re => rnOK re = true) ∧
    OkP (atomF f) (fun re => rnOK re = true) ∧
    OkP (rangeF f) (fun re => rnOK re = true) := by
  induction f with
  | zero =>
    exact ⟨okP_fuelOut, okP_fuelOut, okP_fuelOut, okP_fuelOut, okP_fuelOut, okP_fuelOut⟩
  | succ f ih =>
    obtain ⟨ihr, iht, ihf, ihrep, ihatom, ihrange⟩ := ih
    have hterm : OkP (termF (f + 1)) (fun re => rnOK re = true) := by
      rw [termF]
      exact okP_map (okP_many ihf) (fun xs hxs => rn_mkTerm hxs)
    have hrange : OkP (rangeF (f + 1)) (fun re => rnOK re = true) := by
      rw [rangeF]
      refine okP_choice (okP_choice ?_ ?_) ?_
      · refine okP_bind okP_trivial (fun _ _ => okP_map ihrange ?_)
        intro re hre
        rw [rnOK]
        exact hre
      · refine okP_attempt (okP_bind okP_trivial (fun a _ =>
          okP_bind okP_trivial (fun _ _ => okP_map okP_trivial ?_)))
        intro b _
        rw [rnOK]
      · refine okP_map (okP_many1 okP_trivial) ?_
        intro cs hcs
        rw [rnOK]
        cases cs with
        | nil => exact absurd rfl hcs.1
        | cons c tl => rfl
    have hatom : OkP (atomF (f + 1)) (fun re => rnOK re = true) := by
      rw [atomF]
      refine okP_choice (okP_choice (okP_choice (okP_choice ?_ ?_) ?_) ?_) ?_
      · exact okP_map okP_trivial (fun _ _ => rfl)
      · exact okP_attempt (okP_bind okP_trivial (fun _ _ =>
          okP_map okP_trivial (fun _ _ => rfl)))
      · exact okP_map okP_trivial (fun _ _ => rfl)
      · exact okP_between ihrange
      · exact okP_between ihr
    have hrep : OkP (repeatedF (f + 1)) (fun re => rnOK re = true) := by
      rw [repeatedF]
      refine okP_choice (okP_choice ?_ ?_) ?_
      · refine okP_attempt (okP_bind ihatom (fun re hre => okP_map okP_trivial ?_))
        intro c _
        rw [rnOK]
        exact hre
      · have hpair : OkP (pAttempt (pBind (atomF f) (fun re =>
            pMap (pBetween (pByte 123) (pByte 125) (pMany pDigit)) (fun ds => (re, ds)))))
            (fun x : RegExpr × List Nat => rnOK x.1 = true) := by
          refine okP_attempt (okP_bind ihatom (fun re hre => okP_map okP_trivial ?_))
          intro ds _
          exact hre
        refine okP_mapCrash hpair ?_
        intro x b hx hb
        rcases Option.map_eq_some'.mp hb with ⟨n, _, rfl⟩
        rw [rnOK]
        exact hx
      · have hpair2 : OkP (pBind (atomF f) (fun re =>
            pMap (pBetween (pByte 123) (pByte 125)
              (pBind (pMany pDigit) (fun ds1 =>
                pBind (pByte 44) (fun _ =>
                  pMap (pMany pDigit) (fun ds2 => (ds1, ds2)))))) (fun ds => (re, ds))))
            (fun x : RegExpr × (List Nat × List Nat) => rnOK x.1 = true) := by
          refine okP_bind ihatom (fun re hre => okP_map okP_trivial ?_)
          intro ds _
          exact hre
        refine okP_mapCrash hpair2 ?_
        intro x b hx hb
        exact rn_mkRepeatedBounds hx hb
    have hfac : OkP (factorF (f + 1)) (fun re => rnOK re = true) := by
      rw [factorF]
      refine okP_choice (okP_choice ?_ (okP_attempt ihrep)) ihatom
      refine okP_attempt (okP_bind ihatom (fun re hre => okP_map okP_trivial ?_))
      intro _ _
      rw [rnOK]
      exact hre
    have hreg : OkP (regexF (f + 1)) (fun re => rnOK re = true) := by
      rw [regexF]
      refine okP_choice ?_ iht
      refine okP_attempt (okP_bind iht (fun l hl =>
        okP_bind okP_trivial (fun _ _ => okP_map ihr ?_)))
      intro r hr
      rw [rnOK]
      rw [hl, hr]
      rfl
    exact ⟨hreg, hterm, hfac, hrep, hatom, hrange⟩

lemma patternF_rn (f : Nat) : OkP (patternF f) (fun re => rnOK re = true) := by
  rw [patternF]
  refine okP_between (okP_bind okP_trivial (fun sof _ =>
    okP_bind (grammar_rn f).1 (fun re hre => okP_map okP_trivial (fun eof _ => ?_))))
  exact rn_wrapAnchors sof eof hre

lemma parseOutcome_rn {bs : List Nat} {re : RegExpr}
    (h : parseOutcome bs = .ok re) : rnOK re = true := by
  rw [parseOutcome] at h
  split at h
  · rename_i c re0 rest heq
    split at h
    · cases h
      exact patternF_rn _ bs c re rest heq
    · exact nomatch h
  · exact nomatch h
  · exact nomatch h
  · exact nomatch h

/-! ## The claims -/

/-- C1: the claim states that for every pattern accepted by parse and every
encrypted content, has_match runs the engine without any runtime error and
returns Ok.  The code violates this: parse accepts `/^/` (producing
`Seq [SOF, Seq []]`, as the parser's own test suite records) and `//`
(producing `Seq []`), and on any non-empty content the engine's Seq arm
indexes `re_xs[1..]` / `re_xs[0]` of the empty sequence and panics.  This
theorem evaluates the model at those failing inputs; it also records that the
claim's empty-content part does hold there. -/
theorem c1_engine_panics_on_empty_seq :
    parseStr "/^/" = .ok (.Seq [.SOF, .Seq []]) ∧
    hasMatch (strBytes "a") "/^/" = .crash ∧
    hasMatch [] "/^/" = .ok 0 ∧
    parseStr "//" = .ok (.Seq []) ∧
    hasMatch (strBytes "a") "//" = .crash :=
  ⟨rfl, rfl, rfl, rfl, rfl⟩

/-- C2: whenever has_match returns a ciphertext, decrypting it yields 0 or 1,
for every pattern that parses successfully and every content. -/
theorem c2_result_is_bool (content : List Nat) (pattern : String) (v : Nat)
    (h : hasMatch content pattern = .ok v) : v = 0 ∨ v = 1 :=
  hasMatch_bool content pattern v h

/-- C2 witness: the theorem applied to content "ab" and pattern `/ab/`, whose
run returns an encrypted 1. -/
theorem c2_result_is_bool_witness : (1 : Nat) = 0 ∨ (1 : Nat) = 1 :=
  c2_result_is_bool (strBytes "ab") "/ab/" 1 rfl

/-- C3: the claim states that parse returns a Result on every input — Err on
every malformed pattern, including malformed quantifier bodies such as `{}`
and out-of-range repetition counts — and fails in no other way.  The code
violates this: parse_digits calls `.parse::<usize>().unwrap()`, so `/a{}/`
(empty digit string) and a repetition count exceeding usize both panic instead
of returning Err.  The third conjunct shows the adjacent well-formed input
parses normally. -/
theorem c3_parse_panics_on_bad_digits :
    parseOutcome [47, 97, 123, 125, 47] = .crash ∧
    parseOutcome ([47, 97, 123] ++ List.replicate 20 57 ++ [125, 47]) = .crash ∧
    parseOutcome [47, 97, 123, 50, 125, 47] = .ok (.Repeated (.Char 97) (some 2) (some 2)) :=
  ⟨rfl, rfl, rfl⟩

/-- C4 counterexample: the claim states every parsed Between has from ≤ to and
every parsed Repeated with both bounds has at_least ≤ at_most.  The parser
checks neither: `/[z-a]/` parses to Between 122 97 and `/a{5,2}/` parses to
Repeated with at_least 5, at_most 2. -/
theorem c4_counterexample_unordered_bounds :
    parseStr "/[z-a]/" = .ok (.Between 122 97) ∧ ¬ (122 ≤ 97) ∧
    parseStr "/a{5,2}/" = .ok (.Repeated (.Char 97) (some 5) (some 2)) ∧ ¬ (5 ≤ 2) :=
  ⟨rfl, by decide, rfl, by decide⟩

/-- C4 (amended): parse enforces no ordering between Between.from and
Between.to nor between Repeated.at_least and Repeated.at_most; of the claimed
invariants only Range non-emptiness holds: every Range node in every AST a
successful parse returns carries a non-empty byte list (rnOK checks this
recursively). -/
theorem c4_parsed_ranges_nonempty (bs : List Nat) (re : RegExpr)
    (h : parseOutcome bs = .ok re) : rnOK re = true :=
  parseOutcome_rn h

/-- C4 witness: the amended theorem applied to `/[ab]/`. -/
theorem c4_parsed_ranges_nonempty_witness : rnOK (.Range [97, 98]) = true :=
  c4_parsed_ranges_nonempty (strBytes "/[ab]/") (.Range [97, 98]) rfl

/-- C5: build_branches on SOF yields exactly one always-true branch with the
position unchanged iff c_pos = 0 and no branches otherwise; on EOF likewise
iff c_pos = content.len(); every other variant yields no branches once
c_pos ≥ content.len().  ctTrueL is the always-true branch: it returns the
constant 1 and leaves the state untouched. -/
theorem c5_sof_eof_guard (content : List Nat) (cPos : Nat) :
    ((buildBranches content .SOF cPos = .ok [(ctTrueL, cPos)]) ↔ cPos = 0) ∧
    ((buildBranches content .SOF cPos = .ok []) ↔ cPos ≠ 0) ∧
    ((buildBranches content .EOF cPos = .ok [(ctTrueL, cPos)]) ↔ cPos = content.length) ∧
    ((buildBranches content .EOF cPos = .ok []) ↔ cPos ≠ content.length) ∧
    (∀ s : ExecState, ctTrueL s = some ((1, .Constant 1), s)) ∧
    (∀ re : RegExpr, re ≠ .SOF → re ≠ .EOF → content.length ≤ cPos →
      buildBranches content re cPos = .ok []) := by
  refine ⟨⟨?_, ?_⟩, ⟨?_, ?_⟩, ⟨?_, ?_⟩, ⟨?_, ?_⟩, fun s => rfl, ?_⟩
  · intro h
    by_cases h0 : cPos = 0
    · exact h0
    · simp [buildBranches, heightRe, buildBranchesF, h0] at h
  · intro h0
    subst h0
    rfl
  · intro h
    by_cases h0 : cPos = 0
    · exact absurd h (by simp [buildBranches, heightRe, buildBranchesF, h0])
    · exact h0
  · intro h0
    simp [buildBranches, heightRe, buildBranchesF, h0]
  · intro h
    by_cases h0 : cPos = content.length
    · exact h0
    · simp [buildBranches, heightRe, buildBranchesF, h0] at h
  · intro h0
    subst h0
    simp [buildBranches, heightRe, buildBranchesF]
  · intro h
    by_cases h0 : cPos = content.length
    · exact absurd h (by simp [buildBranches, heightRe, buildBranchesF, h0])
    · exact h0
  · intro h0
    simp [buildBranches, heightRe, buildBranchesF, h0]
  · intro re h1 h2 hlen
    cases re with
    | SOF => exact absurd rfl h1
    | EOF => exact absurd rfl h2
    | Char c => simp [buildBranches, heightRe, buildBranchesF, hlen]
    | AnyChar => simp [buildBranches, heightRe, buildBranchesF, hlen]
    | Not notRe => simp [buildBranches, heightRe, buildBranchesF, hlen]
    | Either lRe rRe => simp [buildBranches, heightRe, buildBranchesF, hlen]
    | Between lo hi => simp [buildBranches, heightRe, buildBranchesF, hlen]
    | Range cs => simp [buildBranches, heightRe, buildBranchesF, hlen]
    | Optional optRe => simp [buildBranches, heightRe, buildBranchesF, hlen]
    | Repeated r al am => simp [buildBranches, heightRe, buildBranchesF, hlen]
    | Seq reXs => simp [buildBranches, heightRe, buildBranchesF, hlen]

/-- C5 witness: the guard conjunct applied to AnyChar at the end of an empty
content. -/
theorem c5_sof_eof_guard_witness : buildBranches [] .AnyChar 0 = .ok [] :=
  (c5_sof_eof_guard [] 0).2.2.2.2.2 .AnyChar (fun h => nomatch h) (fun h => nomatch h)
    (Nat.le_refl 0)

/-- C6: in the Repeated arm an absent at_least behaves as 0 and an absent
at_most behaves as content.len() - c_pos, and whenever the effective at_least
exceeds the effective at_most the sub-expression contributes zero branches. -/
theorem c6_repeated_defaults (content : List Nat) (r : RegExpr)
    (al am : Option Nat) (cPos : Nat) :
    (buildBranches content (.Repeated r none am) cPos =
      buildBranches content (.Repeated r (some 0) am) cPos) ∧
    (buildBranches content (.Repeated r al none) cPos =
      buildBranches content (.Repeated r al (some (content.length - cPos))) cPos) ∧
    (am.getD (content.length - cPos) < al.getD 0 →
      buildBranches content (.Repeated r al am) cPos = .ok []) := by
  refine ⟨rfl, rfl, ?_⟩
  intro h
  by_cases hg : content.length ≤ cPos
  · simp [buildBranches, heightRe, buildBranchesF, hg]
  · simp [buildBranches, heightRe, buildBranchesF, hg, h]

/-- C6 witness: at_least 2 with at_most 1 contributes zero branches. -/
theorem c6_repeated_defaults_witness :
    buildBranches [97] (.Repeated .AnyChar (some 2) (some 1)) 0 = .ok [] :=
  (c6_repeated_defaults [97] .AnyChar (some 2) (some 1) 0).2.2 (by decide)

/-- C7: every non-constant operation consults the cache keyed by its Executed
tag: on a hit the cached ciphertext is returned with the tag, the cache-hit
counter is bumped and neither the cache nor the operation counter changes (the
primitive is not called); on a miss the primitive's result is computed, the
operation counter is bumped and the result is inserted under the tag.  An
immediately repeated ct_eq therefore hits the cache.  ct_constant (and
ct_true/ct_false) never touches state. -/
theorem c7_cache_policy :
    (∀ (s : ExecState) (a b : Nat × Executed) (v : Nat),
      cacheLookup s.cache (.Equal a.2 b.2) = some v →
      ctEq s a b = ((v, .Equal a.2 b.2), ⟨s.cache, s.ctOps, s.cacheHits + 1⟩)) ∧
    (∀ (s : ExecState) (a b : Nat × Executed),
      cacheLookup s.cache (.Equal a.2 b.2) = none →
      ctEq s a b = ((semEq a.1 b.1, .Equal a.2 b.2),
        ⟨(.Equal a.2 b.2, semEq a.1 b.1) :: s.cache, s.ctOps + 1, s.cacheHits⟩)) ∧
    (∀ (s : ExecState) (a b : Nat × Executed) (v : Nat),
      cacheLookup s.cache (.GreaterOrEqual a.2 b.2) = some v →
      ctGe s a b = ((v, .GreaterOrEqual a.2 b.2), ⟨s.cache, s.ctOps, s.cacheHits + 1⟩)) ∧
    (∀ (s : ExecState) (a b : Nat × Executed),
      cacheLookup s.cache (.GreaterOrEqual a.2 b.2) = none →
      ctGe s a b = ((semGe a.1 b.1, .GreaterOrEqual a.2 b.2),
        ⟨(.GreaterOrEqual a.2 b.2, semGe a.1 b.1) :: s.cache, s.ctOps + 1, s.cacheHits⟩)) ∧
    (∀ (s : ExecState) (a b : Nat × Executed) (v : Nat),
      cacheLookup s.cache (.LessOrEqual a.2 b.2) = some v →
      ctLe s a b = ((v, .LessOrEqual a.2 b.2), ⟨s.cache, s.ctOps, s.cacheHits + 1⟩)) ∧
    (∀ (s : ExecState) (a b : Nat × Executed),
      cacheLookup s.cache (.LessOrEqual a.2 b.2) = none →
      ctLe s a b = ((semLe a.1 b.1, .LessOrEqual a.2 b.2),
        ⟨(.LessOrEqual a.2 b.2, semLe a.1 b.1) :: s.cache, s.ctOps + 1, s.cacheHits⟩)) ∧
    (∀ (s : ExecState) (a b : Nat × Executed) (v : Nat),
      cacheLookup s.cache (.And a.2 b.2) = some v →
      ctAnd s a b = ((v, .And a.2 b.2), ⟨s.cache, s.ctOps, s.cacheHits + 1⟩)) ∧
    (∀ (s : ExecState) (a b : Nat × Executed),
      cacheLookup s.cache (.And a.2 b.2) = none →
      ctAnd s a b = ((Nat.land a.1 b.1, .And a.2 b.2),
        ⟨(.And a.2 b.2, Nat.land a.1 b.1) :: s.cache, s.ctOps + 1, s.cacheHits⟩)) ∧
    (∀ (s : ExecState) (a b : Nat × Executed) (v : Nat),
      cacheLookup s.cache (.Or a.2 b.2) = some v →
      ctOr s a b = ((v, .Or a.2 b.2), ⟨s.cache, s.ctOps, s.cacheHits + 1⟩)) ∧
    (∀ (s : ExecState) (a b : Nat × Executed),
      cacheLookup s.cache (.Or a.2 b.2) = none →
      ctOr s a b = ((Nat.lor a.1 b.1, .Or a.2 b.2),
        ⟨(.Or a.2 b.2, Nat.lor a.1 b.1) :: s.cache, s.ctOps + 1, s.cacheHits⟩)) ∧
    (∀ (s : ExecState) (a : Nat × Executed) (v : Nat),
      cacheLookup s.cache (.Not a.2) = some v →
      ctNot s a = ((v, .Not a.2), ⟨s.cache, s.ctOps, s.cacheHits + 1⟩)) ∧
    (∀ (s : ExecState) (a : Nat × Executed),
      cacheLookup s.cache (.Not a.2) = none →
      ctNot s a = ((Nat.xor a.1 1, .Not a.2),
        ⟨(.Not a.2, Nat.xor a.1 1) :: s.cache, s.ctOps + 1, s.cacheHits⟩)) ∧
    (∀ (s : ExecState) (a b : Nat × Executed),
      cacheLookup s.cache (.Equal a.2 b.2) = none →
      ctEq (ctEq s a b).2 a b = ((semEq a.1 b.1, .Equal a.2 b.2),
        ⟨(.Equal a.2 b.2, semEq a.1 b.1) :: s.cache, s.ctOps + 1, s.cacheHits + 1⟩)) ∧
    (∀ c : Nat, ctConstant c = (c, .Constant c)) ∧
    ctTrue = ctConstant 1 ∧ ctFalse = ctConstant 0 := by
  refine ⟨?_, ?_, ?_, ?_, ?_, ?_, ?_, ?_, ?_, ?_, ?_, ?_, ?_, fun c => rfl, rfl, rfl⟩
  · intro s a b v h
    rw [ctEq, withCache, h]
  · intro s a b h
    rw [ctEq, withCache, h]
  · intro s a b v h
    rw [ctGe, withCache, h]
  · intro s a b h
    rw [ctGe, withCache, h]
  · intro s a b v h
    rw [ctLe, withCache, h]
  · intro s a b h
    rw [ctLe, withCache, h]
  · intro s a b v h
    rw [ctAnd, withCache, h]
  · intro s a b h
    rw [ctAnd, withCache, h]
  · intro s a b v h
    rw [ctOr, withCache, h]
  · intro s a b h
    rw [ctOr, withCache, h]
  · intro s a v h
    rw [ctNot, withCache, h]
  · intro s a h
    rw [ctNot, withCache, h]
    rfl
  · intro s a b h
    have hmiss : ctEq s a b = ((semEq a.1 b.1, .Equal a.2 b.2),
        ⟨(.Equal a.2 b.2, semEq a.1 b.1) :: s.cache, s.ctOps + 1, s.cacheHits⟩) := by
      rw [ctEq, withCache, h]
    rw [hmiss]
    show ctEq (⟨(.Equal a.2 b.2, semEq a.1 b.1) :: s.cache,
      s.ctOps + 1, s.cacheHits⟩ : ExecState) a b = _
    rw [ctEq, withCache]
    have hl : cacheLookup
        ((Executed.Equal a.2 b.2, semEq a.1 b.1) :: s.cache) (.Equal a.2 b.2) =
        some (semEq a.1 b.1) := by
      rw [cacheLookup]
      simp
    rw [hl]

/-- C7 witness: a concrete hit (cached value 5 returned, hit counter bumped,
no primitive call) and a concrete miss (primitive equality computed, inserted,
operation counter bumped). -/
theorem c7_cache_policy_witness :
    ctEq ⟨[(.Equal (.Constant 1) (.Constant 0), 5)], 0, 0⟩ (1, .Constant 1) (0, .Constant 0) =
      ((5, .Equal (.Constant 1) (.Constant 0)),
        ⟨[(.Equal (.Constant 1) (.Constant 0), 5)], 0, 1⟩) ∧
    ctEq initExec (1, .Constant 1) (0, .Constant 0) =
      ((0, .Equal (.Constant 1) (.Constant 0)),
        ⟨[(.Equal (.Constant 1) (.Constant 0), 0)], 1, 0⟩) := by
  constructor
  · exact c7_cache_policy.1 _ _ _ 5 rfl
  · exact c7_cache_policy.2.1 initExec (1, .Constant 1) (0, .Constant 0) rfl

/-- C8: when the branch enumeration over all start positions yields no branch
at all — in particular whenever the content is empty — has_match returns a
trivially encrypted 0. -/
theorem c8_no_branches_zero :
    (∀ (pattern : String) (re : RegExpr), parseStr pattern = .ok re →
      hasMatch [] pattern = .ok 0) ∧
    (∀ (content : List Nat) (pattern : String) (re : RegExpr),
      parseStr pattern = .ok re → collectBranches content re = .ok [] →
      hasMatch content pattern = .ok 0) := by
  constructor
  · intro pattern re hp
    simp only [hasMatch, hp]
    rfl
  · intro content pattern re hp hc
    simp only [hasMatch, hp, hc]
    rfl

/-- C8 witness: empty content with `/a/`, and content "a" with `/aa/` (whose
enumeration produces no complete branch). -/
theorem c8_no_branches_zero_witness :
    hasMatch [] "/a/" = .ok 0 ∧ hasMatch [97] "/aa/" = .ok 0 :=
  ⟨c8_no_branches_zero.1 "/a/" (.Char 97) rfl,
   c8_no_branches_zero.2 [97] "/aa/" (.Seq [.Char 97, .Char 97]) rfl rfl⟩

/-- C9: a term of exactly one factor is returned as that factor (not wrapped
in Seq), any other factor count is wrapped in Seq; with no anchor the parser
returns the bare regex, otherwise a Seq of optional SOF, the regex and
optional EOF in that order — mkTerm and wrapAnchors are the closures parse
applies, and the concrete conjuncts show them acting end to end. -/
theorem c9_term_and_anchor_wrapping :
    (∀ x : RegExpr, mkTerm [x] = x) ∧
    (∀ xs : List RegExpr, xs.length ≠ 1 → mkTerm xs = .Seq xs) ∧
    (∀ re : RegExpr, wrapAnchors none re none = re) ∧
    (∀ (b : Nat) (re : RegExpr), wrapAnchors (some b) re none = .Seq [.SOF, re]) ∧
    (∀ (b : Nat) (re : RegExpr), wrapAnchors none re (some b) = .Seq [re, .EOF]) ∧
    (∀ (b1 b2 : Nat) (re : RegExpr),
      wrapAnchors (some b1) re (some b2) = .Seq [.SOF, re, .EOF]) ∧
    parseStr "/a/" = .ok (.Char 97) ∧
    parseStr "/ab/" = .ok (.Seq [.Char 97, .Char 98]) ∧
    parseStr "/^a/" = .ok (.Seq [.SOF, .Char 97]) ∧
    parseStr "/a$/" = .ok (.Seq [.Char 97, .EOF]) ∧
    parseStr "/^a$/" = .ok (.Seq [.SOF, .Char 97, .EOF]) := by
  refine ⟨fun x => rfl, ?_, fun re => rfl, fun b re => rfl, fun b re => rfl,
    fun b1 b2 re => rfl, rfl, rfl, rfl, rfl, rfl⟩
  intro xs h
  cases xs with
  | nil => rfl
  | cons x tl =>
    cases tl with
    | nil => exact absurd rfl h
    | cons y tl2 => rfl

/-- C9 witness: zero factors are wrapped in Seq. -/
theorem c9_term_and_anchor_wrapping_witness : mkTerm [] = .Seq [] :=
  c9_term_and_anchor_wrapping.2.1 [] (by decide)

/-- C10: every branch build_branches returns from a position within the
content ends at a position between the start position and the content length:
the match position never moves backwards and never passes the end. -/
theorem c10_branch_positions (content : List Nat) (re : RegExpr) (cPos : Nat)
    (bs : Branches) (hpos : cPos ≤ content.length)
    (h : buildBranches content re cPos = .ok bs) :
    ∀ b ∈ bs, cPos ≤ b.2 ∧ b.2 ≤ content.length :=
  buildBranchesF_pos (heightRe re) content re cPos bs hpos h

/-- C10 witness: the Char branch on a one-byte content ends at position 1. -/
theorem c10_branch_positions_witness : (0 : Nat) ≤ 1 ∧ (1 : Nat) ≤ 1 :=
  c10_branch_positions [97] (.Char 97) 0 [(charThunk 97 0 97, 1)] (by decide) rfl
    (charThunk 97 0 97, 1) (List.mem_singleton.mpr rfl)

end FheRegex
